import Mathlib

/-!
Verification of the routing and forwarder-selection core of the glider proxy.

Shallow embedding conventions:
* Go strings are modelled as `List Char` (ASCII is all that the studied
  call sites produce or consume).
* Go `int` / `time.Duration` become `Int`; Go `uint32` becomes `Nat`
  reduced modulo `2^32` at each arithmetic step that the source performs
  on the counter.
* Fallible code (`log.Fatal`, Go panics) is modelled with `Option`.
* Network effects are modelled by passing the outcome of each I/O step
  (dial / write / read results) as explicit inputs.
-/

/-! ## String helpers (models of the Go standard library calls used) -/

/-- Model of `strings.Split(s, sep)` for a one-character separator:
auxiliary accumulator-based splitter. -/
def splitOnAux (sep : Char) : List Char → List Char → List (List Char)
  | [], acc => [acc.reverse]
  | c :: cs, acc =>
    if c = sep then acc.reverse :: splitOnAux sep cs []
    else splitOnAux sep cs (c :: acc)

/-- Model of `strings.Split(s, sep)` for a one-character separator. -/
def splitOnChar (sep : Char) (s : List Char) : List (List Char) :=
  splitOnAux sep s []

/-- Model of `strings.Fields`: split on blanks and drop empty fields.
The studied inputs use only the space character as whitespace. -/
def fieldsGo (s : List Char) : List (List Char) :=
  (splitOnChar ' ' s).filter (fun f => f ≠ [])

/-- Model of `strings.LastIndexByte(s, c)`: index of the last occurrence
of `c`, `none` standing for Go's `-1`. -/
def lastIdx (c : Char) : List Char → Option Nat
  | [] => none
  | a :: as =>
    match lastIdx c as with
    | some k => some (k + 1)
    | none => if a = c then some 0 else none

/-- Decimal digit test on a character. -/
def isDigitCh (c : Char) : Bool :=
  48 ≤ c.toNat && c.toNat ≤ 57

/-- Value of a nonempty all-digit string, `none` otherwise. -/
def decDigits (s : List Char) : Option Nat :=
  if s = [] then none
  else if s.all isDigitCh then
    some (s.foldl (fun a c => a * 10 + (c.toNat - 48)) 0)
  else none

/-- Model of `strconv.Atoi`: optional sign followed by at least one
decimal digit.  (Overflow is unreachable at the studied call sites,
which bound the token length to two characters first.) -/
def Atoi : List Char → Option Int
  | [] => none
  | '+' :: rest => (decDigits rest).map (fun n => (n : Int))
  | '-' :: rest => (decDigits rest).map (fun n => -(n : Int))
  | s => (decDigits s).map (fun n => (n : Int))

/-- ASCII model of `strings.ToUpper` on one character. -/
def upperCh (c : Char) : Char :=
  if 97 ≤ c.toNat ∧ c.toNat ≤ 122 then Char.ofNat (c.toNat - 32) else c

/-- ASCII model of `strings.ToUpper`. -/
def upperStr (s : List Char) : List Char := s.map upperCh

/-- ASCII model of `strings.ToLower` on one character. -/
def lowerCh (c : Char) : Char :=
  if 65 ≤ c.toNat ∧ c.toNat ≤ 90 then Char.ofNat (c.toNat + 32) else c

/-- ASCII model of `strings.ToLower`. -/
def lowerStr (s : List Char) : List Char := s.map lowerCh

/-- Decimal rendering of a natural number, auxiliary fuelled loop. -/
def natCharsGo : Nat → Nat → List Char → List Char
  | 0, _, acc => acc
  | _ + 1, 0, acc => acc
  | fuel + 1, m, acc => natCharsGo fuel (m / 10) (Char.ofNat (48 + m % 10) :: acc)

/-- Decimal rendering of a natural number (most significant digit first). -/
def natChars (n : Nat) : List Char :=
  if n = 0 then ['0'] else natCharsGo n n []

/-- Model of `fmt` `%d` on a Go `int`. -/
def govI2S (n : Int) : List Char :=
  if n < 0 then '-' :: natChars (-n).toNat else natChars n.toNat

/-- Model of `fmt` `%02d`: pad the decimal rendering to width two with
leading zeros. -/
def pad2 (n : Int) : List Char :=
  let s := govI2S n
  if s.length < 2 then List.replicate (2 - s.length) '0' ++ s else s

/-! ## `common/timewindow/timewindow.go` -/

/-- `TimeWindow` struct: a weekly recurring interval.  Days run 1 =
Monday .. 7 = Sunday, hours 0..23, minutes 0..59 (all Go `int`). -/
structure TimeWindow where
  FromDay : Int
  ToDay : Int
  FromHour : Int
  FromMin : Int
  ToHour : Int
  ToMin : Int
  deriving Repr, DecidableEq

/-- `parseDaysOfWeek`: a three-letter day name maps to `(d, d)`; otherwise
the field must be `N-M` with two one-character parts whose numeric values
lie in 1..7.  `log.Fatal` exits are modelled as `none`. -/
def parseDaysOfWeek (s : List Char) : Option (Int × Int) :=
  let u := upperStr s
  if u = "MON".data then some (1, 1)
  else if u = "TUE".data then some (2, 2)
  else if u = "WED".data then some (3, 3)
  else if u = "THU".data then some (4, 4)
  else if u = "FRI".data then some (5, 5)
  else if u = "SAT".data then some (6, 6)
  else if u = "SUN".data then some (7, 7)
  else
    let daysOfWeek := splitOnChar '-' s
    if daysOfWeek.length ≠ 2 ∨ (daysOfWeek.getD 0 []).length ≠ 1 ∨
        (daysOfWeek.getD 1 []).length ≠ 1 then none
    else
      match Atoi (daysOfWeek.getD 0 []), Atoi (daysOfWeek.getD 1 []) with
      | some dFrom, some dTo =>
        if dFrom < 1 ∨ 7 < dFrom ∨ dTo < 1 ∨ 7 < dTo then none
        else some (dFrom, dTo)
      | _, _ => none

/-- `parseTime`: `HH:MM` with one- or two-character components, hour in
0..23 and minute in 0..59. -/
def parseTime (s : List Char) : Option (Int × Int) :=
  let timeTokens := splitOnChar ':' s
  if timeTokens.length ≠ 2 ∨ (timeTokens.getD 0 []).length = 0 ∨
      2 < (timeTokens.getD 0 []).length ∨ (timeTokens.getD 1 []).length = 0 ∨
      2 < (timeTokens.getD 1 []).length then none
  else
    match Atoi (timeTokens.getD 0 []), Atoi (timeTokens.getD 1 []) with
    | some hour, some mn =>
      if hour < 0 ∨ 23 < hour ∨ mn < 0 ∨ 59 < mn then none
      else some (hour, mn)
    | _, _ => none

/-- `Parse`: `"<DAYS> HH:MM HH:MM"`, three whitespace-separated fields. -/
def Parse (s : List Char) : Option TimeWindow :=
  let fields := fieldsGo s
  if fields.length ≠ 3 then none
  else
    match parseDaysOfWeek (fields.getD 0 []), parseTime (fields.getD 1 []),
        parseTime (fields.getD 2 []) with
    | some (fd, td), some (fh, fm), some (th, tm) =>
      some ⟨fd, td, fh, fm, th, tm⟩
    | _, _, _ => none

/-- An instant, reduced to the components `Contains` inspects:
`wd` is Go's `time.Weekday()` (0 = Sunday .. 6 = Saturday), plus the
hour and minute of the day. -/
structure Inst where
  wd : Int
  hour : Int
  min : Int
  deriving Repr, DecidableEq

/-- `TimeWindow.Contains`: inclusive day range after mapping Go's
Sunday = 0 to 7, then the hour/minute boundary tests of the source. -/
def TimeWindow.Contains (w : TimeWindow) (t : Inst) : Bool :=
  let weekday : Int := if t.wd = 0 then 7 else t.wd
  if weekday < w.FromDay ∨ w.ToDay < weekday then false
  else if t.hour < w.FromHour ∨ w.ToHour < t.hour then false
  else if t.hour = w.FromHour ∧ t.min < w.FromMin then false
  else if t.hour = w.ToHour ∧ w.ToMin < t.min then false
  else true

/-- The day-name table of `TimeWindow.String` (index 0 is the unused
placeholder `XXX`). -/
def dayOfWeekNames : List (List Char) :=
  ["XXX".data, "MON".data, "TUE".data, "WED".data, "THU".data,
   "FRI".data, "SAT".data, "SUN".data]

/-- `TimeWindow.String`: `"<DAYS> HH:MM HH:MM"` with the day field a
three-letter name when `FromDay = ToDay` and `N-M` otherwise, and
zero-padded two-digit times. -/
def TimeWindow.String (w : TimeWindow) : List Char :=
  let daysOfWeekString :=
    if w.FromDay = w.ToDay then dayOfWeekNames.getD w.FromDay.toNat "XXX".data
    else govI2S w.FromDay ++ '-' :: govI2S w.ToDay
  daysOfWeekString ++ ' ' :: (pad2 w.FromHour ++ ':' :: pad2 w.FromMin) ++
    ' ' :: (pad2 w.ToHour ++ ':' :: pad2 w.ToMin)

/-! ## `strategy` package (strategy.go) -/

/-- A forwarder as the selection paths see it: an identity, the
(immutable) priority, and the current latency estimate (`int64`
nanoseconds, 0 = unmeasured). -/
structure Fwd where
  id : Nat
  pri : Nat
  latency : Int
  deriving Repr, DecidableEq

/-- Placeholder forwarder used for total list indexing; every theorem
guards the indexing with the nonemptiness the source relies on. -/
def dfltFwd : Fwd := ⟨0, 0, 0⟩

/-- The four selection policies of `newProxy`. -/
inductive Strat where
  | rr
  | ha
  | lha
  | dh
  deriving Repr, DecidableEq

/-- 2^32: the modulus of the `uint32` round-robin counter. -/
def u32 : Nat := 4294967296

/-- FNV-1a 32-bit hash of a byte string (`hash/fnv`), as used by
`scheduleDH`. -/
def fnv32a (s : List Char) : Nat :=
  s.foldl (fun h c => ((h ^^^ c.toNat % 256) * 16777619) % u32) 2166136261

/-- `scheduleRR`: pre-increment the `uint32` counter, index `avail`
modulo its length.  Returns the choice and the updated counter. -/
def scheduleRR (avail : List Fwd) (index : Nat) : Fwd × Nat :=
  let ni := (index + 1) % u32
  (avail.getD (ni % avail.length) dfltFwd, ni)

/-- `scheduleHA`: always `avail[0]`. -/
def scheduleHA (avail : List Fwd) : Fwd :=
  avail.getD 0 dfltFwd

/-- `scheduleLHA`: linear scan keeping the forwarder with the smallest
latency, seeded with `avail[0]`. -/
def scheduleLHA (avail : List Fwd) : Fwd :=
  let f0 := avail.getD 0 dfltFwd
  (avail.foldl
    (fun acc f => if f.latency < acc.2 then (f, f.latency) else acc)
    (f0, f0.latency)).1

/-- `scheduleDH`: FNV-1a hash of the destination address modulo the
length of `avail`. -/
def scheduleDH (avail : List Fwd) (dstAddr : List Char) : Fwd :=
  avail.getD (fnv32a dstAddr % avail.length) dfltFwd

/-- Outcome of `NextDialer`: either the reject forwarder or a member of
the group's forwarder lists.  (The reject forwarder is allocated
separately from `reject://` in `newProxy` and is never an element of
`fwdrs`, hence a distinguished constructor.) -/
inductive Pick where
  | reject
  | picked (f : Fwd)
  deriving Repr, DecidableEq

/-- `NextDialer`: time-window admission, then the empty-`avail`
emergency path over the raw forwarder list, then the policy dispatch
that `newProxy` installed in `p.next`.  The group state that the call
reads and writes is passed and returned explicitly: `index` is the
`uint32` round-robin counter. -/
def NextDialer (forwardTime rejectTime : List TimeWindow) (strat : Strat)
    (fwdrs avail : List Fwd) (index : Nat) (now : Inst)
    (dstAddr : List Char) : Pick × Nat :=
  let allowed :=
    if forwardTime.length = 0 then true
    else forwardTime.any (fun w => w.Contains now)
  if allowed = false then (Pick.reject, index)
  else if rejectTime.any (fun w => w.Contains now) then (Pick.reject, index)
  else if avail.length = 0 then
    let ni := (index + 1) % u32
    (Pick.picked (fwdrs.getD (ni % fwdrs.length) dfltFwd), ni)
  else
    match strat with
    | .rr => let r := scheduleRR avail index; (Pick.picked r.1, r.2)
    | .ha => (Pick.picked (scheduleHA avail), index)
    | .lha => (Pick.picked (scheduleLHA avail), index)
    | .dh => (Pick.picked (scheduleDH avail dstAddr), index)

/-- `NewProxy`: an empty forwarder list is replaced by the single
implicit direct forwarder (the URL-parsing of each forwarder happens
above this model; `log.Fatal` on a bad URL never reaches `newProxy`). -/
def NewProxyFwdrs (parsed : List Fwd) (direct : Fwd) : List Fwd :=
  if parsed.length = 0 then [direct] else parsed

/-- `sort.Sort(priSlice)` of `newProxy`: sort by descending priority
(the comparator is `p[i].Priority() > p[j].Priority()`). -/
def sortFwdrs (l : List Fwd) : List Fwd :=
  l.mergeSort (fun a b => b.pri ≤ a.pri)

/-- `checkWebSite`, as a function of the outcome of each I/O step:
`dialOk`/`writeOk`/`readOk` say whether dial, the request write and the
4-byte read succeeded, `buf` is the read buffer afterwards, `readTime`
the elapsed time (`time.Since(startTime)`) and `timeout` the configured
check timeout, both in nanoseconds.  Result: the Boolean return value,
the enabled flag the call leaves on the forwarder, and the latency it
recorded (`none` when `SetLatency` was not reached). -/
def checkWebSite (dialOk writeOk readOk : Bool) (buf : List Char)
    (readTime timeout : Int) : Bool × Bool × Option Int :=
  if dialOk = false then (false, false, none)
  else if writeOk = false then (false, false, none)
  else if readOk = false then (false, false, none)
  else if buf ≠ "HTTP".data then (false, false, none)
  else if timeout < readTime then (false, false, some readTime)
  else (true, true, some readTime)

/-- The wait-counter update of one iteration of `Proxy.check`'s loop:
success resets to 1; failure raises 0 to 1, doubles, and caps at 16.
`wait` is a `uint8`, hence the modulus on the doubling. -/
def checkWaitNext (wait : Nat) (probeOk : Bool) : Nat :=
  if probeOk then 1
  else
    let w1 := if wait = 0 then 1 else wait
    let w2 := (w1 * 2) % 256
    if 16 < w2 then 16 else w2

/-! ## `rule` package (rule.go): `nextProxy` -/

/-- Model of `net.SplitHostPort` for the unbracketed form the router
receives: split at the last colon; no colon at all, or a colon or
bracket left in the host part (Go's "too many colons" / bracket
errors), is an error.  IPv6 bracket syntax is outside the modelled
inputs. -/
def splitHostPort (s : List Char) : Option (List Char × List Char) :=
  match lastIdx ':' s with
  | none => none
  | some i =>
    let host := s.take i
    let port := s.drop (i + 1)
    if ':' ∈ host ∨ '[' ∈ host ∨ ']' ∈ host ∨ '[' ∈ port ∨ ']' ∈ port then
      none
    else some (host, port)

/-- One dotted-quad component: one to three decimal digits with value
at most 255 (this Go version accepts leading zeros as decimal). -/
def ip4Part (s : List Char) : Option Nat :=
  if s.length = 0 ∨ 3 < s.length then none
  else match decDigits s with
    | some v => if v ≤ 255 then some v else none
    | none => none

/-- Model of `net.ParseIP` restricted to IPv4 dotted-quad literals
(hosts that reach this point contain no colon, so the IPv6 branch of
the source is unreachable in the model's input space). -/
def parseIP (s : List Char) : Option (Nat × Nat × Nat × Nat) :=
  match (splitOnChar '.' s).map ip4Part with
  | [some a, some b, some c, some d] => some (a, b, c, d)
  | _ => none

/-- `ip.String()` for an IPv4 address: canonical dotted decimal. -/
def ipToStr (ip : Nat × Nat × Nat × Nat) : List Char :=
  natChars ip.1 ++ '.' :: natChars ip.2.1 ++ '.' :: natChars ip.2.2.1 ++
    '.' :: natChars ip.2.2.2

/-- An IPv4 CIDR as `net.IPNet`: network address and mask length. -/
structure Cidr where
  net : Nat × Nat × Nat × Nat
  maskLen : Nat
  deriving Repr, DecidableEq

/-- `net.IPNet.Contains` for IPv4: the first `maskLen` bits agree. -/
def cidrContains (c : Cidr) (ip : Nat × Nat × Nat × Nat) : Bool :=
  let num := fun (x : Nat × Nat × Nat × Nat) =>
    x.1 * 16777216 + x.2.1 * 65536 + x.2.2.1 * 256 + x.2.2.2
  let shift := 32 - min c.maskLen 32
  num c.net / 2 ^ shift = num ip / 2 ^ shift

/-- First-match association lookup: model of `sync.Map.Load` over the
entries in store order (groups are identified by `Nat` labels). -/
def mapLoad (m : List (List Char × Nat)) (key : List Char) : Option Nat :=
  match m.find? (fun e => e.1 = key) with
  | some e => some e.2
  | none => none

/-- The loop of `nextProxy` over the domain map: repeatedly take
`LastIndexByte(host[:i], '.')` and look up `host[i+1:]`, until the
index reaches -1.  `i` is the current prefix length; the extra `fuel`
argument only makes the recursion structural and is irrelevant as long
as `i < fuel`, which every caller establishes (the index strictly
decreases each iteration). -/
def domainLoopF (dm : List (List Char × Nat)) (host : List Char) :
    Nat → Nat → Option Nat
  | 0, _ => none
  | fuel + 1, i =>
    match lastIdx '.' (host.take i) with
    | none => mapLoad dm host
    | some k =>
      match mapLoad dm (host.drop (k + 1)) with
      | some g => some g
      | none => domainLoopF dm host fuel k

/-- The domain-map loop of `nextProxy`, entered with `i = len(host)`. -/
def domainLoop (dm : List (List Char × Nat)) (host : List Char) : Option Nat :=
  domainLoopF dm host (host.length + 1) host.length

/-- `nextProxy`: split the destination, try the IP map and the CIDR
scan for numeric hosts, then the lowercased dot-suffix domain loop,
then the default group. -/
def nextProxy (defaultG : Nat) (ipMap : List (List Char × Nat))
    (cidrMap : List (Cidr × Nat)) (domainMap : List (List Char × Nat))
    (dstAddr : List Char) : Nat :=
  match splitHostPort dstAddr with
  | none => defaultG
  | some (host0, _) =>
    let viaMaps :=
      match parseIP host0 with
      | some ip =>
        match mapLoad ipMap (ipToStr ip) with
        | some g => some g
        | none =>
          match cidrMap.find? (fun e => cidrContains e.1 ip) with
          | some e => some e.2
          | none => none
      | none => none
    match viaMaps with
    | some g => g
    | none =>
      let host := lowerStr host0
      match domainLoop domainMap host with
      | some g => g
      | none => defaultG

/-- The sequence of keys `domainLoopF` probes from index `i`, in probe
order (depends only on the host, not on the map); fuelled like
`domainLoopF`. -/
def probeOrderF (host : List Char) : Nat → Nat → List (List Char)
  | 0, _ => []
  | fuel + 1, i =>
    match lastIdx '.' (host.take i) with
    | none => [host]
    | some k => host.drop (k + 1) :: probeOrderF host fuel k

/-- The keys the domain loop probes for `host`, in probe order. -/
def probeOrder (host : List Char) : List (List Char) :=
  probeOrderF host (host.length + 1) host.length

/-- The group of the first key of `keys` present in `dm`. -/
def firstHit (dm : List (List Char × Nat)) : List (List Char) → Option Nat
  | [] => none
  | k :: ks =>
    match mapLoad dm k with
    | some g => some g
    | none => firstHit dm ks

/-! ## Group availability state (`Proxy.init` / `Proxy.onStatusChanged`) -/

/-- The mutable group state that `init` and `onStatusChanged` touch.
Forwarders are identified by `Nat` ids; their (immutable) priorities
are the ambient function `pri`, their mutable enabled flags live in
the state. -/
structure PState where
  enabled : Nat → Bool
  avail : List Nat
  priority : Nat

/-- `Proxy.init`: set the active priority to the first enabled
forwarder's priority (scanning the priority-sorted list), rebuild
`avail` as the enabled forwarders at or above that priority, and reset
the priority to 0 when nothing is available. -/
def initAvail (fwdrs : List Nat) (pri : Nat → Nat) (s : PState) : PState :=
  let p1 :=
    match fwdrs.find? (fun f => s.enabled f) with
    | some f => pri f
    | none => s.priority
  let avail := fwdrs.filter (fun f => s.enabled f && p1 ≤ pri f)
  if avail.length = 0 then ⟨s.enabled, avail, 0⟩
  else ⟨s.enabled, avail, p1⟩

/-- The swap-with-last-then-truncate removal of `onStatusChanged`:
overwrite the first occurrence of `fwdr` with the last element, then
drop the last slot.  No occurrence leaves the list unchanged. -/
def removeFwdr (fwdr : Nat) (avail : List Nat) : List Nat :=
  if avail.indexOf fwdr < avail.length then
    (avail.set (avail.indexOf fwdr) (avail.getLastD 0)).dropLast
  else avail

/-- The `if fwdr.Enabled()` / `else` statement of `Proxy.onStatusChanged`
(`s.enabled` already holds the new flags). -/
def onStatusChangedCore (fwdrs : List Nat) (pri : Nat → Nat) (s : PState)
    (fwdr : Nat) : PState :=
  if s.enabled fwdr then
    if pri fwdr = s.priority then
      ⟨s.enabled, s.avail ++ [fwdr], s.priority⟩
    else if s.priority < pri fwdr then initAvail fwdrs pri s
    else s
  else ⟨s.enabled, removeFwdr fwdr s.avail, s.priority⟩

/-- `Proxy.onStatusChanged`, called with the forwarder whose enabled
flag just changed: the enabled/disabled handling followed by the final
rebuild when `avail` came out empty. -/
def onStatusChanged (fwdrs : List Nat) (pri : Nat → Nat) (s : PState)
    (fwdr : Nat) : PState :=
  let s1 := onStatusChangedCore fwdrs pri s fwdr
  if s1.avail.length = 0 then initAvail fwdrs pri s1 else s1

/-- Flip one forwarder's enabled flag (the `Enable`/`Disable` calls
that precede a status-change callback). -/
def setEnabled (s : PState) (f : Nat) (b : Bool) : PState :=
  ⟨fun x => if x = f then b else s.enabled x, s.avail, s.priority⟩

/-- Group states reachable from construction: `newProxy` runs `init`
once on the freshly built group (empty `avail`, priority 0, arbitrary
initial flags), and afterwards every actual enabled-flag change of a
forwarder runs `onStatusChanged`; `init` may also rerun. -/
inductive Reachable (fwdrs : List Nat) (pri : Nat → Nat) : PState → Prop
  | base (en : Nat → Bool) :
      Reachable fwdrs pri (initAvail fwdrs pri ⟨en, [], 0⟩)
  | statusStep {s : PState} (f : Nat) (b : Bool) :
      Reachable fwdrs pri s → s.enabled f ≠ b →
      Reachable fwdrs pri (onStatusChanged fwdrs pri (setEnabled s f b) f)
  | initStep {s : PState} :
      Reachable fwdrs pri s → Reachable fwdrs pri (initAvail fwdrs pri s)

/-- The invariant carried through every reachable group state: `avail`
has no duplicates (forwarders are distinct objects) and each of its
members is enabled with priority at least the active priority. -/
def availGood (pri : Nat → Nat) (s : PState) : Prop :=
  s.avail.Nodup ∧ ∀ f ∈ s.avail, s.enabled f = true ∧ s.priority ≤ pri f

/-! ## Theorems -/

/-- C6: with three enabled forwarders `[A, B, C]` (sorted order), strategy
`rr`, no time windows, and the round-robin counter starting at 0, five
successive `pickForwarder` calls return `B, C, A, B, C`: the 32-bit
counter is pre-incremented before the modulo. -/
theorem NextDialer_rr_rotation :
    (let fs : List Fwd := [⟨0, 1, 0⟩, ⟨1, 1, 0⟩, ⟨2, 1, 0⟩]
     let now : Inst := ⟨1, 12, 0⟩
     let c1 := NextDialer [] [] .rr fs fs 0 now "x".data
     let c2 := NextDialer [] [] .rr fs fs c1.2 now "x".data
     let c3 := NextDialer [] [] .rr fs fs c2.2 now "x".data
     let c4 := NextDialer [] [] .rr fs fs c3.2 now "x".data
     let c5 := NextDialer [] [] .rr fs fs c4.2 now "x".data
     [c1.1, c2.1, c3.1, c4.1, c5.1] =
       [.picked ⟨1, 1, 0⟩, .picked ⟨2, 1, 0⟩, .picked ⟨0, 1, 0⟩,
        .picked ⟨1, 1, 0⟩, .picked ⟨2, 1, 0⟩]) := by decide

/-- C7 counterexample: a failed probe from the initial `wait = 0` sets
`wait` to 2, not to 1 as the claim (`max(1, wait*2)` capped at 16, hence
1 at `wait = 0`) states: the source raises 0 to 1 before doubling. -/
theorem checkWaitNext_zero_cex :
    checkWaitNext 0 false = 2 ∧ checkWaitNext 0 false ≠ 1 := by decide

/-- C7 amended: for every reachable wait value, a successful probe sets
`wait` to 1, and a failed probe sets it to `min (max wait 1 * 2) 16`,
i.e. 0 is first raised to 1 and then doubled (so a failure from the
initial `wait = 0` yields 2), doubling caps at 16. -/
theorem checkWaitNext_backoff (wait : Nat) (h : wait ≤ 16) :
    checkWaitNext wait false = min (max wait 1 * 2) 16 ∧
    checkWaitNext wait true = 1 := by
  have hall : ∀ w, w ≤ 16 →
      checkWaitNext w false = min (max w 1 * 2) 16 ∧ checkWaitNext w true = 1 := by
    decide
  exact hall wait h

/-- C7 witness: the amended backoff theorem evaluated at `wait = 0`. -/
theorem checkWaitNext_backoff_witness :
    checkWaitNext 0 false = min (max 0 1 * 2) 16 ∧ checkWaitNext 0 true = 1 :=
  checkWaitNext_backoff 0 (by decide)

/-- C2 counterexample: with dial, write and read all succeeding, the
buffer equal to `"HTTP"`, elapsed time 1ns and `checktimeout = 0`, the
probe disables the forwarder and returns false even though the claimed
condition `elapsed > timeout ∧ timeout > 0` is false (a zero timeout
does not disable the elapsed-time bound in the source). -/
theorem checkWebSite_timeout_zero_cex :
    checkWebSite true true true "HTTP".data 1 0 = (false, false, some 1) ∧
    ¬((0 : Int) > 0) := by
  constructor
  · decide
  · decide

/-- C2 amended: for every probe in which the TCP dial, the request write
and the 4-byte read succeed and the bytes equal `"HTTP"`, the forwarder
is disabled and the probe returns false exactly when
`elapsed > timeout` (with no `timeout > 0` side condition, so
`checktimeout = 0` disables on any positive elapsed time); otherwise the
forwarder is enabled and the probe returns true; the measured latency is
recorded in both cases. -/
theorem checkWebSite_success_classify (readTime timeout : Int) :
    checkWebSite true true true "HTTP".data readTime timeout =
      if timeout < readTime then (false, false, some readTime)
      else (true, true, some readTime) := by
  simp [checkWebSite]

/-- C8 counterexample: `Parse "5-2 00:00 00:00"` succeeds and produces a
window with `fromDay = 5 > toDay = 2`: a days field `N-M` with `N > M`
is not rejected. -/
theorem Parse_day_range_cex :
    Parse "5-2 00:00 00:00".data = some ⟨5, 2, 0, 0, 0, 0⟩ ∧
    ¬((5 : Int) ≤ 2) := by
  constructor
  · decide
  · decide

/-- C10: after `NewProxy` the (sorted) forwarder list is non-empty (an
empty URL list is replaced by one direct forwarder), hence the divisor
`len(forwarders)` in the emergency fallback is positive and its
round-robin index is in bounds; likewise the `scheduleRR` index over a
non-empty `available` list is in bounds. -/
theorem NewProxy_index_safety (parsed : List Fwd) (direct : Fwd) (i : Nat)
    (f : Fwd) (rest : List Fwd) :
    0 < (sortFwdrs (NewProxyFwdrs parsed direct)).length ∧
    ((i + 1) % u32) % (sortFwdrs (NewProxyFwdrs parsed direct)).length <
      (sortFwdrs (NewProxyFwdrs parsed direct)).length ∧
    ((i + 1) % u32) % (f :: rest).length < (f :: rest).length := by
  have hlen : (sortFwdrs (NewProxyFwdrs parsed direct)).length =
      (NewProxyFwdrs parsed direct).length := List.length_mergeSort _
  have hpos : 0 < (NewProxyFwdrs parsed direct).length := by
    unfold NewProxyFwdrs
    split
    · simp
    · omega
  refine ⟨hlen ▸ hpos, Nat.mod_lt _ (hlen ▸ hpos), Nat.mod_lt _ (by simp)⟩

/-- C5: when the available list is empty and the time windows allow the
request, `pickForwarder` returns
`forwarders[atomic_inc(rrIndex) mod len(forwarders)]` from the raw
forwarder list, and advances the 32-bit counter. -/
theorem NextDialer_emergency_pick (ft rt : List TimeWindow) (strat : Strat)
    (g : Fwd) (gs : List Fwd) (index : Nat) (now : Inst) (dst : List Char)
    (hallow : ft = [] ∨ ∃ w ∈ ft, w.Contains now = true)
    (hreject : ∀ w ∈ rt, w.Contains now = false) :
    NextDialer ft rt strat (g :: gs) [] index now dst =
      (Pick.picked ((g :: gs).getD (((index + 1) % u32) % (g :: gs).length) dfltFwd),
       (index + 1) % u32) := by
  have hallowB : (if ft.length = 0 then true
      else ft.any fun w => w.Contains now) = true := by
    by_cases hft : ft.length = 0
    · simp [hft]
    · rcases hallow with h | ⟨w, hw, hc⟩
      · simp [h] at hft
      · simp only [hft, if_false, List.any_eq_true]
        exact ⟨w, hw, hc⟩
  have hrejB : rt.any (fun w => w.Contains now) = false := by
    rw [List.any_eq_false]
    intro w hw
    simp [hreject w hw]
  simp only [NextDialer]
  rw [hallowB, hrejB]
  simp

/-- C5 witness: the emergency path evaluated for a one-forwarder group
with no time windows. -/
theorem NextDialer_emergency_pick_witness :
    NextDialer [] [] .rr [⟨0, 0, 0⟩] [] 0 ⟨1, 0, 0⟩ "x".data =
      (Pick.picked (([⟨0, 0, 0⟩] : List Fwd).getD (((0 + 1) % u32) % ([(⟨0, 0, 0⟩ : Fwd)] : List Fwd).length) dfltFwd),
       (0 + 1) % u32) :=
  NextDialer_emergency_pick [] [] .rr ⟨0, 0, 0⟩ [] 0 ⟨1, 0, 0⟩ "x".data
    (Or.inl rfl) (by simp)

/-- C3: `pickForwarder` returns the reject forwarder iff either the
`forwardtime` list is non-empty and no forwardtime window contains
`now`, or some `rejecttime` window contains `now` (stated for any group
with a non-empty forwarder list, as built by `NewProxy`). -/
theorem NextDialer_reject_iff (ft rt : List TimeWindow) (strat : Strat)
    (g : Fwd) (gs avail : List Fwd) (index : Nat) (now : Inst)
    (dst : List Char) :
    (NextDialer ft rt strat (g :: gs) avail index now dst).1 = Pick.reject ↔
      ((ft ≠ [] ∧ ∀ w ∈ ft, w.Contains now = false) ∨
        ∃ w ∈ rt, w.Contains now = true) := by
  by_cases hft : ft.length = 0
  · have hftnil : ft = [] := List.length_eq_zero.mp hft
    by_cases hr : rt.any (fun w => w.Contains now) = true
    · simp only [NextDialer, hft, if_true, hr]
      simp only [List.any_eq_true] at hr
      simp [hftnil, hr]
    · have hr' : rt.any (fun w => w.Contains now) = false := by
        simpa using hr
      simp only [NextDialer, hft, if_true, hr']
      rw [List.any_eq_false] at hr'
      constructor
      · intro hcontra
        by_cases hav : avail.length = 0 <;>
          · revert hcontra
            cases strat <;> simp [hav, hftnil]
      · rintro (⟨hne, _⟩ | ⟨w, hw, hc⟩)
        · exact absurd hftnil hne
        · exact absurd hc (by simpa using hr' w hw)
  · by_cases ha : ft.any (fun w => w.Contains now) = true
    · by_cases hr : rt.any (fun w => w.Contains now) = true
      · simp only [NextDialer, hft, if_false, ha]
        simp only [List.any_eq_true] at hr
        simp [hr]
      · have hr' : rt.any (fun w => w.Contains now) = false := by simpa using hr
        simp only [NextDialer, hft, if_false, ha, hr']
        rw [List.any_eq_false] at hr'
        rw [List.any_eq_true] at ha
        obtain ⟨w0, hw0, hc0⟩ := ha
        constructor
        · intro hcontra
          by_cases hav : avail.length = 0 <;>
            · revert hcontra
              cases strat <;> simp [hav]
        · rintro (⟨_, hnone⟩ | ⟨w, hw, hc⟩)
          · exact absurd hc0 (by simp [hnone w0 hw0])
          · exact absurd hc (by simpa using hr' w hw)
    · have ha' : ft.any (fun w => w.Contains now) = false := by simpa using ha
      simp only [NextDialer, hft, if_false, ha']
      rw [List.any_eq_false] at ha'
      constructor
      · intro _
        left
        refine ⟨by simpa [List.length_eq_zero] using hft, fun w hw => by simpa using ha' w hw⟩
      · intro _
        rfl

theorem domainLoopF_eq_firstHit (dm : List (List Char × Nat))
    (host : List Char) :
    ∀ fuel i, domainLoopF dm host fuel i =
      firstHit dm (probeOrderF host fuel i) := by
  intro fuel
  induction fuel with
  | zero => intro i; rfl
  | succ n ih =>
    intro i
    simp only [domainLoopF, probeOrderF]
    cases lastIdx '.' (host.take i) with
    | none => cases h : mapLoad dm host <;> simp [firstHit, h]
    | some k =>
      cases h : mapLoad dm (host.drop (k + 1)) <;> simp [firstHit, h, ih]

theorem domainLoop_eq_firstHit (dm : List (List Char × Nat))
    (host : List Char) :
    domainLoop dm host = firstHit dm (probeOrder host) :=
  domainLoopF_eq_firstHit dm host (host.length + 1) host.length

/-- C1 counterexample: with group `R1 = 1` on domain `example.com` and
group `R2 = 2` on domain `api.example.com`,
`nextGroup("x.api.example.com:443")` returns `R1`, not `R2` as the
claim states: the loop probes the shortest suffix first, so
`example.com` is found before `api.example.com` is ever probed. -/
theorem nextProxy_longest_suffix_cex :
    nextProxy 0 [] []
        [("example.com".data, 1), ("api.example.com".data, 2)]
        "x.api.example.com:443".data = 1 ∧
    (1 : Nat) ≠ 2 := by
  constructor
  · decide
  · decide

/-- C1 amended: the domain lookup probes dot-suffixes from shortest to
longest: for host `a.b.example.com` it probes `com`, `example.com`,
`b.example.com`, `a.b.example.com` in that order (and never the empty
key), returning the group of the first key present; consequently with
`R1` on `example.com` and `R2` on `api.example.com`,
`nextGroup("x.api.example.com:443")` returns `R1`. -/
theorem nextProxy_suffix_order :
    (∀ dm : List (List Char × Nat),
      domainLoop dm "a.b.example.com".data =
        firstHit dm ["com".data, "example.com".data, "b.example.com".data,
          "a.b.example.com".data]) ∧
    nextProxy 0 [] []
        [("example.com".data, 1), ("api.example.com".data, 2)]
        "x.api.example.com:443".data = 1 := by
  constructor
  · intro dm
    rw [domainLoop_eq_firstHit]
    have hpo : probeOrder "a.b.example.com".data =
        ["com".data, "example.com".data, "b.example.com".data,
          "a.b.example.com".data] := by decide
    rw [hpo]
  · decide

theorem parseDaysOfWeek_bounds {s : List Char} {a b : Int}
    (h : parseDaysOfWeek s = some (a, b)) :
    1 ≤ a ∧ a ≤ 7 ∧ 1 ≤ b ∧ b ≤ 7 := by
  simp only [parseDaysOfWeek] at h
  repeat' split at h
  all_goals try exact Option.noConfusion h
  all_goals simp only [Option.some.injEq, Prod.mk.injEq] at h
  all_goals obtain ⟨h1, h2⟩ := h
  all_goals omega

theorem parseTime_bounds {s : List Char} {a b : Int}
    (h : parseTime s = some (a, b)) :
    0 ≤ a ∧ a ≤ 23 ∧ 0 ≤ b ∧ b ≤ 59 := by
  simp only [parseTime] at h
  repeat' split at h
  all_goals try exact Option.noConfusion h
  all_goals simp only [Option.some.injEq, Prod.mk.injEq] at h
  all_goals obtain ⟨h1, h2⟩ := h
  all_goals omega

/-- C8 amended: every window produced by a successful `Parse` has
`fromDay, toDay ∈ [1..7]`, `fromHour, toHour ∈ [0..23]` and
`fromMin, toMin ∈ [0..59]`; the relation `fromDay ≤ toDay` is NOT
enforced (see the counterexample). -/
theorem Parse_bounds (s : List Char) (w : TimeWindow)
    (h : Parse s = some w) :
    1 ≤ w.FromDay ∧ w.FromDay ≤ 7 ∧ 1 ≤ w.ToDay ∧ w.ToDay ≤ 7 ∧
    0 ≤ w.FromHour ∧ w.FromHour ≤ 23 ∧ 0 ≤ w.FromMin ∧ w.FromMin ≤ 59 ∧
    0 ≤ w.ToHour ∧ w.ToHour ≤ 23 ∧ 0 ≤ w.ToMin ∧ w.ToMin ≤ 59 := by
  simp only [Parse] at h
  split at h
  · exact Option.noConfusion h
  · split at h
    case _ fd td fh fm th tm hd ht1 ht2 =>
      cases h
      obtain ⟨d1, d2, d3, d4⟩ := parseDaysOfWeek_bounds hd
      obtain ⟨t1a, t1b, t1c, t1d⟩ := parseTime_bounds ht1
      obtain ⟨t2a, t2b, t2c, t2d⟩ := parseTime_bounds ht2
      exact ⟨d1, d2, d3, d4, t1a, t1b, t1c, t1d, t2a, t2b, t2c, t2d⟩
    case _ => exact Option.noConfusion h

/-- C8 witness: the bounds theorem evaluated on `MON 08:00 22:00`. -/
theorem Parse_bounds_witness :
    1 ≤ (⟨1, 1, 8, 0, 22, 0⟩ : TimeWindow).FromDay ∧
    (⟨1, 1, 8, 0, 22, 0⟩ : TimeWindow).FromDay ≤ 7 ∧
    1 ≤ (⟨1, 1, 8, 0, 22, 0⟩ : TimeWindow).ToDay ∧
    (⟨1, 1, 8, 0, 22, 0⟩ : TimeWindow).ToDay ≤ 7 ∧
    0 ≤ (⟨1, 1, 8, 0, 22, 0⟩ : TimeWindow).FromHour ∧
    (⟨1, 1, 8, 0, 22, 0⟩ : TimeWindow).FromHour ≤ 23 ∧
    0 ≤ (⟨1, 1, 8, 0, 22, 0⟩ : TimeWindow).FromMin ∧
    (⟨1, 1, 8, 0, 22, 0⟩ : TimeWindow).FromMin ≤ 59 ∧
    0 ≤ (⟨1, 1, 8, 0, 22, 0⟩ : TimeWindow).ToHour ∧
    (⟨1, 1, 8, 0, 22, 0⟩ : TimeWindow).ToHour ≤ 23 ∧
    0 ≤ (⟨1, 1, 8, 0, 22, 0⟩ : TimeWindow).ToMin ∧
    (⟨1, 1, 8, 0, 22, 0⟩ : TimeWindow).ToMin ≤ 59 :=
  Parse_bounds "MON 08:00 22:00".data ⟨1, 1, 8, 0, 22, 0⟩ (by decide)

theorem splitOnAux_sep (sep : Char) :
    ∀ (s t acc : List Char), sep ∉ s →
      splitOnAux sep (s ++ sep :: t) acc =
        (acc.reverse ++ s) :: splitOnAux sep t [] := by
  intro s
  induction s with
  | nil => intro t acc _; simp [splitOnAux]
  | cons x xs ih =>
    intro t acc h
    rw [List.mem_cons] at h
    push_neg at h
    simp only [List.cons_append, splitOnAux, List.append_eq]
    rw [if_neg (fun e => h.1 e.symm), ih t (x :: acc) h.2]
    simp

theorem splitOnAux_no_sep (sep : Char) :
    ∀ (s acc : List Char), sep ∉ s →
      splitOnAux sep s acc = [acc.reverse ++ s] := by
  intro s
  induction s with
  | nil => intro acc _; simp [splitOnAux]
  | cons x xs ih =>
    intro acc h
    rw [List.mem_cons] at h
    push_neg at h
    simp only [splitOnAux]
    rw [if_neg (fun e => h.1 e.symm), ih (x :: acc) h.2]
    simp

theorem fieldsGo_three (a b c : List Char) (ha : ' ' ∉ a) (hb : ' ' ∉ b)
    (hc : ' ' ∉ c) (na : a ≠ []) (nb : b ≠ []) (nc : c ≠ []) :
    fieldsGo (a ++ ' ' :: b ++ ' ' :: c) = [a, b, c] := by
  have hshape : a ++ ' ' :: b ++ ' ' :: c = a ++ ' ' :: (b ++ ' ' :: c) := by
    simp
  unfold fieldsGo splitOnChar
  rw [hshape, splitOnAux_sep ' ' a (b ++ ' ' :: c) [] ha,
    splitOnAux_sep ' ' b c [] hb, splitOnAux_no_sep ' ' c [] hc]
  simp [na, nb, nc]

theorem parseTime_pad2 : ∀ h : Nat, h < 24 → ∀ m : Nat, m < 60 →
    parseTime (pad2 (h : Int) ++ ':' :: pad2 (m : Int)) =
      some ((h : Int), (m : Int)) := by decide

theorem parseDays_dayField : ∀ a : Nat, a < 7 → ∀ b : Nat, b < 7 →
    parseDaysOfWeek
        (if ((a + 1 : Nat) : Int) = ((b + 1 : Nat) : Int) then
          dayOfWeekNames.getD (((a + 1 : Nat) : Int)).toNat "XXX".data
        else govI2S ((a + 1 : Nat) : Int) ++ '-' :: govI2S ((b + 1 : Nat) : Int)) =
      some (((a + 1 : Nat) : Int), ((b + 1 : Nat) : Int)) := by decide

theorem pad2_facts : ∀ n : Nat, n < 60 →
    (' ' ∉ pad2 (n : Int) ∧ pad2 (n : Int) ≠ []) := by decide

theorem dayField_facts : ∀ a : Nat, a < 7 → ∀ b : Nat, b < 7 →
    (' ' ∉ (if ((a + 1 : Nat) : Int) = ((b + 1 : Nat) : Int) then
        dayOfWeekNames.getD (((a + 1 : Nat) : Int)).toNat "XXX".data
      else govI2S ((a + 1 : Nat) : Int) ++ '-' :: govI2S ((b + 1 : Nat) : Int)) ∧
    (if ((a + 1 : Nat) : Int) = ((b + 1 : Nat) : Int) then
        dayOfWeekNames.getD (((a + 1 : Nat) : Int)).toNat "XXX".data
      else govI2S ((a + 1 : Nat) : Int) ++ '-' :: govI2S ((b + 1 : Nat) : Int)) ≠ []) := by decide

/-- C9: for every window with `fromDay, toDay ∈ [1..7]`,
`fromHour, toHour ∈ [0..23]`, `fromMin, toMin ∈ [0..59]`, rendering
with `String` and re-parsing yields the original window, for both the
single-day (day-name) form and the `N-M` range form. -/
theorem String_Parse_roundtrip (w : TimeWindow)
    (h1 : 1 ≤ w.FromDay) (h2 : w.FromDay ≤ 7)
    (h3 : 1 ≤ w.ToDay) (h4 : w.ToDay ≤ 7)
    (h5 : 0 ≤ w.FromHour) (h6 : w.FromHour ≤ 23)
    (h7 : 0 ≤ w.FromMin) (h8 : w.FromMin ≤ 59)
    (h9 : 0 ≤ w.ToHour) (h10 : w.ToHour ≤ 23)
    (h11 : 0 ≤ w.ToMin) (h12 : w.ToMin ≤ 59) :
    Parse w.String = some w := by
  obtain ⟨fd, td, fh, fm, th, tm⟩ := w
  simp only at h1 h2 h3 h4 h5 h6 h7 h8 h9 h10 h11 h12
  obtain ⟨a, rfl⟩ : ∃ n : Nat, fd = ((n + 1 : Nat) : Int) :=
    ⟨fd.toNat - 1, by omega⟩
  obtain ⟨b, rfl⟩ : ∃ n : Nat, td = ((n + 1 : Nat) : Int) :=
    ⟨td.toNat - 1, by omega⟩
  obtain ⟨c, rfl⟩ : ∃ n : Nat, fh = (n : Int) := ⟨fh.toNat, by omega⟩
  obtain ⟨d, rfl⟩ : ∃ n : Nat, fm = (n : Int) := ⟨fm.toNat, by omega⟩
  obtain ⟨e, rfl⟩ : ∃ n : Nat, th = (n : Int) := ⟨th.toNat, by omega⟩
  obtain ⟨f, rfl⟩ : ∃ n : Nat, tm = (n : Int) := ⟨tm.toNat, by omega⟩
  have hd := parseDays_dayField a (by omega) b (by omega)
  have htt1 := parseTime_pad2 c (by omega) d (by omega)
  have htt2 := parseTime_pad2 e (by omega) f (by omega)
  have hdf := dayField_facts a (by omega) b (by omega)
  have hp1 := pad2_facts c (by omega)
  have hp2 := pad2_facts d (by omega)
  have hp3 := pad2_facts e (by omega)
  have hp4 := pad2_facts f (by omega)
  simp only [TimeWindow.String]
  rw [Parse]
  rw [fieldsGo_three _ _ _ hdf.1
    (by
      intro hmem
      rcases List.mem_append.mp hmem with hx | hx
      · exact hp1.1 hx
      · rcases List.mem_cons.mp hx with hx' | hx'
        · exact absurd hx' (by decide)
        · exact hp2.1 hx')
    (by
      intro hmem
      rcases List.mem_append.mp hmem with hx | hx
      · exact hp3.1 hx
      · rcases List.mem_cons.mp hx with hx' | hx'
        · exact absurd hx' (by decide)
        · exact hp4.1 hx')
    hdf.2 (by simp [hp1.2]) (by simp [hp3.2])]
  simp only [List.length_cons, List.length_nil, List.getD]
  simp only [List.getD] at hd
  simp at hd
  simp [hd, htt1, htt2]

/-- C9 witness: the round-trip theorem at the concrete window
`3-5 07:05 23:59`. -/
theorem String_Parse_roundtrip_witness :
    Parse (TimeWindow.String ⟨3, 5, 7, 5, 23, 59⟩) =
      some ⟨3, 5, 7, 5, 23, 59⟩ :=
  String_Parse_roundtrip ⟨3, 5, 7, 5, 23, 59⟩ (by decide) (by decide)
    (by decide) (by decide) (by decide) (by decide) (by decide) (by decide)
    (by decide) (by decide) (by decide) (by decide)

theorem removeFwdr_perm (f : Nat) (l : List Nat)
    (hidx : l.indexOf f < l.length) :
    ∃ A B : List Nat, l = A ++ f :: B ∧ (removeFwdr f l).Perm (A ++ B) := by
  refine ⟨l.take (l.indexOf f), l.drop (l.indexOf f + 1), ?_, ?_⟩
  · conv_lhs => rw [← List.take_append_drop (l.indexOf f) l]
    rw [List.drop_eq_getElem_cons hidx, List.getElem_indexOf hidx]
  · simp only [removeFwdr, if_pos hidx]
    rw [List.set_eq_take_cons_drop _ hidx]
    cases hB : l.drop (l.indexOf f + 1) with
    | nil =>
      rw [List.dropLast_concat]
      simp
    | cons b B2 =>
      have hBne : b :: B2 ≠ [] := by simp
      have hv : l.getLastD 0 = (b :: B2).getLast hBne := by
        conv_lhs => rw [← List.take_append_drop (l.indexOf f + 1) l, hB]
        rw [List.getLastD_eq_getLast?, List.getLast?_append_of_ne_nil _ hBne,
          List.getLast?_eq_getLast _ hBne]
        rfl
      rw [hv, List.dropLast_append_of_ne_nil _ (List.cons_ne_nil _ _), List.dropLast_cons₂]
      refine List.Perm.append_left _ ?_
      have hps := List.perm_append_singleton ((b :: B2).getLast hBne)
        ((b :: B2).dropLast)
      rw [List.dropLast_concat_getLast hBne] at hps
      exact hps.symm

theorem mem_of_mem_removeFwdr {x f : Nat} {l : List Nat}
    (hx : x ∈ removeFwdr f l) : x ∈ l := by
  by_cases hidx : l.indexOf f < l.length
  · obtain ⟨A, B, hl, hperm⟩ := removeFwdr_perm f l hidx
    have hx2 : x ∈ A ++ B := hperm.mem_iff.mp hx
    rw [hl]
    rcases List.mem_append.mp hx2 with h | h
    · exact List.mem_append.mpr (Or.inl h)
    · exact List.mem_append.mpr (Or.inr (List.mem_cons_of_mem _ h))
  · simpa [removeFwdr, if_neg hidx] using hx

theorem nodup_removeFwdr {f : Nat} {l : List Nat} (hl : l.Nodup) :
    (removeFwdr f l).Nodup := by
  by_cases hidx : l.indexOf f < l.length
  · obtain ⟨A, B, hleq, hperm⟩ := removeFwdr_perm f l hidx
    have h2 : (A ++ B).Nodup := by
      rw [hleq] at hl
      exact (List.nodup_middle.mp hl).of_cons
    exact hperm.symm.nodup h2
  · simpa [removeFwdr, if_neg hidx] using hl

theorem not_mem_removeFwdr {f : Nat} {l : List Nat} (hl : l.Nodup) :
    f ∉ removeFwdr f l := by
  by_cases hidx : l.indexOf f < l.length
  · obtain ⟨A, B, hleq, hperm⟩ := removeFwdr_perm f l hidx
    intro hmem
    have hfab : f ∈ A ++ B := hperm.mem_iff.mp hmem
    rw [hleq] at hl
    exact (List.nodup_cons.mp (List.nodup_middle.mp hl)).1 hfab
  · intro hmem
    simp only [removeFwdr, if_neg hidx] at hmem
    exact hidx (List.indexOf_lt_length.mpr hmem)

theorem initAvail_good (fwdrs : List Nat) (pri : Nat → Nat) (s : PState)
    (hnd : fwdrs.Nodup) : availGood pri (initAvail fwdrs pri s) := by
  unfold availGood
  simp only [initAvail]
  split
  · refine ⟨List.Nodup.filter _ hnd, ?_⟩
    intro f hf
    simp only at hf
    rw [List.mem_filter] at hf
    have h2 := hf.2
    rw [Bool.and_eq_true, decide_eq_true_eq] at h2
    exact ⟨h2.1, Nat.zero_le _⟩
  · refine ⟨List.Nodup.filter _ hnd, ?_⟩
    intro f hf
    simp only at hf
    rw [List.mem_filter] at hf
    have h2 := hf.2
    rw [Bool.and_eq_true, decide_eq_true_eq] at h2
    exact ⟨h2.1, h2.2⟩

theorem ite_init_good {fwdrs : List Nat} {pri : Nat → Nat} {s1 : PState}
    (hnd : fwdrs.Nodup) (hg : availGood pri s1) :
    availGood pri (if s1.avail.length = 0 then initAvail fwdrs pri s1 else s1) := by
  split
  · exact initAvail_good _ _ _ hnd
  · exact hg

theorem onStatusChangedCore_good (fwdrs : List Nat) (pri : Nat → Nat)
    (s : PState) (f : Nat) (b : Bool) (hnd : fwdrs.Nodup)
    (hg : availGood pri s) (hchange : s.enabled f ≠ b) :
    availGood pri (onStatusChangedCore fwdrs pri (setEnabled s f b) f) := by
  obtain ⟨hndav, hmem⟩ := hg
  have hsf : (setEnabled s f b).enabled f = b := by simp [setEnabled]
  cases b with
  | true =>
    have hold : s.enabled f = false := by
      cases h0 : s.enabled f
      · rfl
      · exact absurd h0 hchange
    have hfnotin : f ∉ s.avail := fun hf => by
      have h1 := (hmem f hf).1
      rw [hold] at h1
      exact Bool.noConfusion h1
    unfold onStatusChangedCore
    rw [hsf, if_pos rfl]
    by_cases hpe : pri f = (setEnabled s f true).priority
    · rw [if_pos hpe]
      refine ⟨?_, ?_⟩
      · show (s.avail ++ [f]).Nodup
        have h1 : (f :: (s.avail ++ [])).Nodup := by
          rw [List.append_nil]
          exact List.nodup_cons.mpr ⟨hfnotin, hndav⟩
        exact List.nodup_middle.mpr h1
      · intro x hx
        change x ∈ s.avail ++ [f] at hx
        rcases List.mem_append.mp hx with hxa | hxf
        · have hxne : x ≠ f := fun e => hfnotin (e ▸ hxa)
          refine ⟨?_, ?_⟩
          · show (if x = f then true else s.enabled x) = true
            rw [if_neg hxne]
            exact (hmem x hxa).1
          · show s.priority ≤ pri x
            exact (hmem x hxa).2
        · have hxe : x = f := by simpa using hxf
          subst hxe
          refine ⟨?_, ?_⟩
          · show (if x = x then true else s.enabled x) = true
            rw [if_pos rfl]
          · show s.priority ≤ pri x
            exact le_of_eq hpe.symm
    · rw [if_neg hpe]
      by_cases hlt : (setEnabled s f true).priority < pri f
      · rw [if_pos hlt]
        exact initAvail_good _ _ _ hnd
      · rw [if_neg hlt]
        refine ⟨hndav, ?_⟩
        intro x hx
        change x ∈ s.avail at hx
        have hxne : x ≠ f := fun e => hfnotin (e ▸ hx)
        refine ⟨?_, ?_⟩
        · show (if x = f then true else s.enabled x) = true
          rw [if_neg hxne]
          exact (hmem x hx).1
        · show s.priority ≤ pri x
          exact (hmem x hx).2
  | false =>
    unfold onStatusChangedCore
    rw [hsf]
    simp only [Bool.false_eq_true, if_false]
    refine ⟨?_, ?_⟩
    · show (removeFwdr f s.avail).Nodup
      exact nodup_removeFwdr hndav
    · intro x hx
      change x ∈ removeFwdr f s.avail at hx
      have hxin : x ∈ s.avail := mem_of_mem_removeFwdr hx
      have hxne : x ≠ f := fun e => not_mem_removeFwdr hndav (e ▸ hx)
      refine ⟨?_, ?_⟩
      · show (if x = f then false else s.enabled x) = true
        rw [if_neg hxne]
        exact (hmem x hxin).1
      · show s.priority ≤ pri x
        exact (hmem x hxin).2

theorem onStatusChanged_good (fwdrs : List Nat) (pri : Nat → Nat)
    (s : PState) (f : Nat) (b : Bool) (hnd : fwdrs.Nodup)
    (hg : availGood pri s) (hchange : s.enabled f ≠ b) :
    availGood pri (onStatusChanged fwdrs pri (setEnabled s f b) f) := by
  unfold onStatusChanged
  exact ite_init_good hnd (onStatusChangedCore_good fwdrs pri s f b hnd hg hchange)

theorem reachable_good (fwdrs : List Nat) (pri : Nat → Nat) (s : PState)
    (hnd : fwdrs.Nodup) (hr : Reachable fwdrs pri s) : availGood pri s := by
  induction hr with
  | base en => exact initAvail_good _ _ _ hnd
  | statusStep f b hr hch ih => exact onStatusChanged_good _ _ _ _ _ hnd ih hch
  | initStep hr ih => exact initAvail_good _ _ _ hnd

/-- C4: in every state reachable from group construction by `init` runs
and status-change callbacks (fired only on an actual enabled-flag
change), every forwarder in the available list is enabled and has
priority at least the group active priority. -/
theorem avail_invariant (fwdrs : List Nat) (pri : Nat → Nat) (s : PState)
    (hnd : fwdrs.Nodup) (hr : Reachable fwdrs pri s) :
    ∀ f ∈ s.avail, s.enabled f = true ∧ s.priority ≤ pri f :=
  (reachable_good fwdrs pri s hnd hr).2

/-- C4 witness: the invariant evaluated just after construction of a
two-forwarder group with both forwarders enabled at priority 5, at the
forwarder with id 1 (a member of the resulting available list). -/
theorem avail_invariant_witness :
    (initAvail [1, 2] (fun _ => 5) ⟨fun _ => true, [], 0⟩).enabled 1 = true ∧
    (initAvail [1, 2] (fun _ => 5) ⟨fun _ => true, [], 0⟩).priority ≤
      (fun _ => 5) 1 :=
  avail_invariant [1, 2] (fun _ => 5) _ (by decide)
    (Reachable.base (fun _ => true)) 1 (by decide)
